import Mathlib

/-!
Verification of the blockwise int4/int2 quantization routines of
`onnxruntime/core/mlas/lib/q4_dq.cpp`, shallowly embedded in Lean.

IEEE binary32 values are modelled as rationals: every finite float is a
rational, and on the concrete inputs used by the witnesses and
counterexamples below (small integers and halves) the float arithmetic
performed by the source is exact, so it coincides with `ℚ` arithmetic.
`roundf` (round half away from zero), `(uint8_t)` truncation of a
clamped nonnegative value, and `std::clamp`/`std::min`/`std::max` are
modelled explicitly.
-/

namespace Q4dq

/-- `std::numeric_limits<float>::max()`, the scan initializer used by the
source (`min = FLT_MAX; max = -FLT_MAX`). -/
def fltMax : ℚ := (2 ^ 24 - 1) * 2 ^ 104

/-- `roundf`: round half away from zero, as a rational-valued function. -/
def roundf (x : ℚ) : ℚ :=
  if x < 0 then ((-⌊-x + 1 / 2⌋ : ℤ) : ℚ) else ((⌊x + 1 / 2⌋ : ℤ) : ℚ)

/-- `(uint8_t)` cast of a nonnegative clamped float: truncation toward zero,
which on nonnegative values is the floor. -/
def castU8 (x : ℚ) : ℕ := (⌊x⌋).toNat

/-- `std::clamp(v, lo, hi)`. -/
def clampQ (v lo hi : ℚ) : ℚ := if v < lo then lo else if hi < v then hi else v

/-- `scale ? 1.0f / scale : 0.0f` — the reciprocal-with-zero-guard used by
every quantization loop in the source. -/
def recipOf (scale : ℚ) : ℚ := if scale ≠ 0 then 1 / scale else 0

/-- `BitsTraits<qbits>::kMax = (1 << qbits) - 1`. -/
def kMax (qbits : ℕ) : ℕ := 2 ^ qbits - 1

/-- `BitsTraits<qbits>::kMid = 1 << (qbits - 1)`. -/
def kMid (qbits : ℕ) : ℕ := 2 ^ (qbits - 1)

/-- `BitsTraits<qbits>::kMaxFp`, `kMax` as a float. -/
def kMaxFp (qbits : ℕ) : ℚ := (kMax qbits : ℚ)

/-- `BitsTraits<qbits>::kPackSize`: quantized elements per byte. -/
def kPackSize (qbits : ℕ) : ℕ :=
  if qbits = 8 then 1 else if qbits = 4 then 2 else if qbits = 2 then 4 else 0

/-- `range2scalezp<ScaleT, qbits>` (q4_dq.cpp lines 342-368): rectify a
scanned `[min, max]` and produce the asymmetric scale and clamped zero
point.  Returns `(scale, zp)`. -/
def range2scalezp (qbits : ℕ) (mn mx : ℚ) : ℚ × ℕ :=
  let zpMax : ℕ := kMax qbits
  let zpMaxFp : ℚ := kMaxFp qbits
  let mn' := min mn 0
  let mx' := max mx 0
  let scaleF := (mx' - mn') / zpMaxFp
  let zeroPointFp := if scaleF ≠ 0 then 0 - mn' / scaleF else mn'
  let zp : ℕ :=
    if zeroPointFp < 0 then 0
    else if zeroPointFp > zpMaxFp then zpMax
    else castU8 (roundf zeroPointFp)
  (scaleF, zp)

/-- `range2scale<ScaleT, qbits>` (q4_dq.cpp lines 370-381): symmetric scale
from a scanned `[min, max]`: `max = fabsf(max) > fabsf(min) ? max : min;
scale = max / -mid`. -/
def range2scale (qbits : ℕ) (mn mx : ℚ) : ℚ :=
  let midFp : ℚ := -(kMid qbits : ℚ)
  let m := if |mx| > |mn| then mx else mn
  m / midFp

/-! ## Q4 GEMM packed family

The four block-type descriptors `MLAS_Q4TYPE_BLK{0,1,2,4}` and the enum
`MLAS_BLK_QUANT_TYPE` are declared in `q4common.h` / the public MLAS
header, which are not part of the sources at hand. -/

/-- Modelled from the spec: `MLAS_BLK_QUANT_TYPE` enum value `BlkQ4Sym`
(symmetric, block length 32); the header declaring the enum is absent, its
member values are taken in declaration order. -/
def BlkQ4Sym : ℕ := 0

/-- Modelled from the spec: enum value `BlkQ4Zp8` (asymmetric, block
length 32). -/
def BlkQ4Zp8 : ℕ := 1

/-- Modelled from the spec: enum value `BlkQ4Sym64`. -/
def BlkQ4Sym64 : ℕ := 2

/-- Modelled from the spec: enum value `BlkQ4Sym128`. -/
def BlkQ4Sym128 : ℕ := 4

/-- Modelled from the spec (§4.1 table): `MLAS_Q4TYPE_BLK0` (SYM) has
`BlkLen = 32`, `BlobSize = 4 + 16 = 20`. -/
def blk0Len : ℕ := 32

/-- Modelled from the spec: `MLAS_Q4TYPE_BLK0::BlobSize = 20`. -/
def blk0Blob : ℕ := 20

/-- Modelled from the spec: `MLAS_Q4TYPE_BLK1` (ASYM) has `BlkLen = 32`,
`BlobSize = 4 + 1 + 16 = 21`. -/
def blk1Len : ℕ := 32

/-- Modelled from the spec: `MLAS_Q4TYPE_BLK1::BlobSize = 21`. -/
def blk1Blob : ℕ := 21

/-- Modelled from the spec: `MLAS_Q4TYPE_BLK2` (SYM64) has `BlkLen = 64`,
`BlobSize = 4 + 32 = 36`. -/
def blk2Len : ℕ := 64

/-- Modelled from the spec: `MLAS_Q4TYPE_BLK2::BlobSize = 36`. -/
def blk2Blob : ℕ := 36

/-- Modelled from the spec: `MLAS_Q4TYPE_BLK4` (SYM128) has `BlkLen = 128`,
`BlobSize = 4 + 64 = 68`. -/
def blk4Len : ℕ := 128

/-- Modelled from the spec: `MLAS_Q4TYPE_BLK4::BlobSize = 68`. -/
def blk4Blob : ℕ := 68

/-- Modelled from the spec: `MlasDivRoundup(K, BlkLen)` (declared in the
absent `mlasi.h`) is the ceiling division `⌈K / BlkLen⌉`. -/
def divRoundup (a b : ℕ) : ℕ := (a + b - 1) / b

/-- `BlkQ4BufSize<T>(N, K) = N * ⌈K / BlkLen⌉ * BlobSize`
(q4_dq.cpp lines 23-30). -/
def BlkQ4BufSize (blkLen blobSize N K : ℕ) : ℕ := N * divRoundup K blkLen * blobSize

/-- `MlasQ4GemmPackBSize` (q4_dq.cpp lines 32-50).  The check
`GetMlasPlatform().FpQ4GemmDispatch == nullptr` on the platform dispatch
table (defined outside these sources) is modelled by the Boolean
`dispatchPresent`. -/
def MlasQ4GemmPackBSize (dispatchPresent : Bool) (qtype N K : ℕ) : ℕ :=
  if dispatchPresent = false then 0
  else if qtype = BlkQ4Sym then BlkQ4BufSize blk0Len blk0Blob N K
  else if qtype = BlkQ4Sym64 then BlkQ4BufSize blk2Len blk2Blob N K
  else if qtype = BlkQ4Sym128 then BlkQ4BufSize blk4Len blk4Blob N K
  else BlkQ4BufSize blk1Len blk1Blob N K

/-- The symmetric pack's block scan (q4_dq.cpp lines 65-74):
`amax`/`max` fold keeping the first value attaining the maximal absolute
value (`if (amax < fabsf(v)) { amax = fabsf(v); max = v; }`).
Returns `(amax, max)`. -/
def scanAbsMax (blk : List ℚ) : ℚ × ℚ :=
  blk.foldl (fun am v => if am.1 < |v| then (|v|, v) else am) (0, 0)

/-- The symmetric per-block scale `scale = max / (-8)` (q4_dq.cpp line 76). -/
def symScale (blk : List ℚ) : ℚ := (scanAbsMax blk).2 / (-8)

/-- One payload nibble of the symmetric pack (q4_dq.cpp lines 84-89):
position `p` inside the block; source positions past `klen` contribute
`v0 = 0`; the nibble is `(uint8_t)min(15, max(0, v0 + 8.5))`. -/
def symNibble (blk : List ℚ) (recip : ℚ) (p : ℕ) : ℕ :=
  let v0 : ℚ := if p < blk.length then blk.getD p 0 * recip else 0
  castU8 (min 15 (max 0 (v0 + 17 / 2)))

/-- Number of 32-element sub-strides emitted for a block of `klen`
elements (`for kk = 0; kk < klen; kk += 32`). -/
def subStrides (klen : ℕ) : ℕ := (klen + 31) / 32

/-- The symmetric pack's payload bytes for one block (q4_dq.cpp
lines 81-94): for each 32-sub-stride, 16 bytes pairing nibble `kk+l`
(low) with nibble `kk+l+16` (high). -/
def symPayload (blk : List ℚ) : List ℕ :=
  let recip := recipOf (symScale blk)
  (List.range (subStrides blk.length)).flatMap fun s =>
    (List.range 16).map fun l =>
      symNibble blk recip (32 * s + l) ||| (symNibble blk recip (32 * s + l + 16) <<< 4)

/-- One blob of the symmetric Q4 GEMM packed format: the float scale and
the packed payload bytes. -/
structure SymBlob where
  scale : ℚ
  data : List ℕ
  deriving DecidableEq

/-- Pack one symmetric block. -/
def symBlob (blk : List ℚ) : SymBlob := ⟨symScale blk, symPayload blk⟩

/-- The `klen` source values of the K-block starting at row `k` of
column `n` (`src[ldb * l]` from `FpData + n + ldb * k`). -/
def colBlock (src : ℕ → ℚ) (ldb n k klen : ℕ) : List ℚ :=
  (List.range klen).map fun l => src (n + ldb * (k + l))

/-- `MlasQ4GemmPackBImpl<T>` for the symmetric block types (q4_dq.cpp
lines 53-103): iterate columns outermost, K-blocks inside, emitting one
blob per block. -/
def packSymImpl (blkLen : ℕ) (src : ℕ → ℚ) (N K ldb : ℕ) : List SymBlob :=
  (List.range N).flatMap fun n =>
    (List.range (divRoundup K blkLen)).map fun kb =>
      symBlob (colBlock src ldb n (kb * blkLen) (min blkLen (K - kb * blkLen)))

/-- The asymmetric pack's min/max block scan (q4_dq.cpp lines 118-125):
fold from `(FLT_MAX, -FLT_MAX)` with `if (v < min) min = v; if (v > max)
max = v;`. -/
def scanMinMax (blk : List ℚ) : ℚ × ℚ :=
  blk.foldl (fun mm v => (if v < mm.1 then v else mm.1, if v > mm.2 then v else mm.2))
    (fltMax, -fltMax)

/-- The asymmetric BLK1 per-block parameters (q4_dq.cpp lines 126-144):
clamp the scanned range around zero, `scale = (max - min) / 15`, and the
explicitly clamped zero point.  Returns `(scale, zp)`. -/
def asymBlockParams (blk : List ℚ) : ℚ × ℕ :=
  let mm := scanMinMax blk
  let mn := min mm.1 0
  let mx := max mm.2 0
  let scale := (mx - mn) / ((2 ^ 4 - 1 : ℕ) : ℚ)
  let zeroPointFp := if scale ≠ 0 then 0 - mn / scale else mn
  let zp : ℕ :=
    if zeroPointFp < 0 then 0
    else if zeroPointFp > 15 then 15
    else castU8 (roundf zeroPointFp)
  (scale, zp)

/-- One payload nibble of the asymmetric pack (q4_dq.cpp lines 150-158):
source positions past `klen` contribute `v0 = 0`; the nibble is
`(uint8_t)min(15, max(0, roundf(v0 * recip + zp)))`. -/
def asymNibble (blk : List ℚ) (recip : ℚ) (zp : ℕ) (p : ℕ) : ℕ :=
  let v0 : ℚ := if p < blk.length then blk.getD p 0 else 0
  castU8 (min 15 (max 0 (roundf (v0 * recip + (zp : ℚ)))))

/-- The asymmetric pack's payload bytes for one block (q4_dq.cpp
lines 148-163). -/
def asymPayload (blk : List ℚ) : List ℕ :=
  let p := asymBlockParams blk
  let recip := recipOf p.1
  (List.range (subStrides blk.length)).flatMap fun s =>
    (List.range 16).map fun l =>
      asymNibble blk recip p.2 (32 * s + l) ||| (asymNibble blk recip p.2 (32 * s + l + 16) <<< 4)

/-- One blob of the asymmetric Q4 GEMM packed format: scale, zero point
byte, payload bytes. -/
structure AsymBlob where
  scale : ℚ
  zp : ℕ
  data : List ℕ
  deriving DecidableEq

/-- Pack one asymmetric block. -/
def asymBlob (blk : List ℚ) : AsymBlob :=
  ⟨(asymBlockParams blk).1, (asymBlockParams blk).2, asymPayload blk⟩

/-- `MlasQ4GemmPackBImpl<MLAS_Q4TYPE_BLK1>` (q4_dq.cpp lines 105-170). -/
def packAsymImpl (src : ℕ → ℚ) (N K ldb : ℕ) : List AsymBlob :=
  (List.range N).flatMap fun n =>
    (List.range (divRoundup K blk1Len)).map fun kb =>
      asymBlob (colBlock src ldb n (kb * blk1Len) (min blk1Len (K - kb * blk1Len)))

/-- A packed Q4 GEMM buffer: either a stream of symmetric blobs or of
asymmetric (BLK1) blobs. -/
inductive PackedB where
  | sym (blobs : List SymBlob)
  | asym (blobs : List AsymBlob)
  deriving DecidableEq

/-- `MlasQ4GemmPackB` (q4_dq.cpp lines 172-193): the switch on `QType`
with cases `BlkQ4Sym`, `BlkQ4Sym64`, `BlkQ4Sym128` and a default falling
through to the BLK1 implementation. -/
def MlasQ4GemmPackB (qtype : ℕ) (src : ℕ → ℚ) (N K ldb : ℕ) : PackedB :=
  if qtype = BlkQ4Sym then .sym (packSymImpl blk0Len src N K ldb)
  else if qtype = BlkQ4Sym64 then .sym (packSymImpl blk2Len src N K ldb)
  else if qtype = BlkQ4Sym128 then .sym (packSymImpl blk4Len src N K ldb)
  else .asym (packAsymImpl src N K ldb)

/-- The symmetric unpack's per-nibble value (q4_dq.cpp lines 214-225):
`((vi & 0xF) - 8) * scale`. -/
def unpackSymVal (nib : ℕ) (scale : ℚ) : ℚ := (((nib : ℤ) - 8 : ℤ) : ℚ) * scale

/-- The asymmetric unpack's per-nibble value (q4_dq.cpp lines 255-265):
`(vi - zp) * scale`. -/
def unpackAsymVal (nib zp : ℕ) (scale : ℚ) : ℚ := (((nib : ℤ) - (zp : ℤ) : ℤ) : ℚ) * scale

/-- `MlasQ4GemmUnPackB` (q4_dq.cpp lines 275-296) reinterprets the raw
packed bytes according to the selected block type; the dispatch is
modelled as selecting the `(BlkLen, BlobSize, is-asymmetric)` variant the
switch instantiates, with the same default fall-through to BLK1. -/
def MlasQ4GemmUnPackBSelect (qtype : ℕ) : ℕ × ℕ × Bool :=
  if qtype = BlkQ4Sym then (blk0Len, blk0Blob, false)
  else if qtype = BlkQ4Sym64 then (blk2Len, blk2Blob, false)
  else if qtype = BlkQ4Sym128 then (blk4Len, blk4Blob, false)
  else (blk1Len, blk1Blob, true)

/-! ## Generic blockwise quantizer (`BlockwiseQuantizer<ElementT, block_size, qbits, Columnwise>`)

`QuantBlk` is `[block_size, 1]` (columnwise) or `[1, block_size]`
(rowwise); `kRow`/`kCol` below are its dimensions.  The thread tile is
`[2 * kRow, kCol]` (`kPackSize = 2` for 4-bit).  Output arrays are
modelled by the value each location holds after the call: every scale,
zero-point byte and payload byte is written by exactly one tile. -/

/-- `QuantBlk` dimensions selected by the `Columnwise` template flag. -/
def blkDims (blockSize : ℕ) (columnwise : Bool) : ℕ × ℕ :=
  if columnwise then (blockSize, 1) else (1, blockSize)

/-- `BlockwiseQuantizer::quantizeMetaShape` (q4_dq.cpp lines 405-411). -/
def quantizeMetaShape (kRow kCol rows cols : ℕ) : ℕ × ℕ :=
  ((rows + kRow - 1) / kRow, (cols + kCol - 1) / kCol)

/-- `BlockwiseQuantizer::quantizedShape` (q4_dq.cpp lines 413-423). -/
def quantizedShape (qbits kRow kCol rows cols : ℕ) : ℕ × ℕ :=
  let m := quantizeMetaShape kRow kCol rows cols
  ((m.1 * kRow * qbits + 7) / 8, m.2 * kCol)

/-- `BlockwiseQuantizer::quantizedBufferSizes` (q4_dq.cpp lines 425-441):
`(data bytes, scale element count, zero-point bytes)`. -/
def quantizedBufferSizes (qbits kRow kCol rows cols : ℕ) : ℕ × ℕ × ℕ :=
  let m := quantizeMetaShape kRow kCol rows cols
  let q := quantizedShape qbits kRow kCol rows cols
  (q.1 * q.2, m.1 * m.2, (m.1 * qbits + 7) / 8 * m.2)

/-- `MlasBlockwiseQuantizedBufferSizes` (q4_dq.cpp lines 1024-1108): the
runtime switch over `qbits == 4` and `block_size ∈ {16,32,64,128,256}`,
instantiating the matching `BlockwiseQuantizer` specialization; all other
parameters leave the zero-initialized outputs. -/
def MlasBlockwiseQuantizedBufferSizes (qbits blockSize : ℕ) (columnwise : Bool)
    (rows cols : ℕ) : ℕ × ℕ × ℕ :=
  if qbits = 4 then
    match blockSize, columnwise with
    | 16, true => quantizedBufferSizes 4 16 1 rows cols
    | 16, false => quantizedBufferSizes 4 1 16 rows cols
    | 32, true => quantizedBufferSizes 4 32 1 rows cols
    | 32, false => quantizedBufferSizes 4 1 32 rows cols
    | 64, true => quantizedBufferSizes 4 64 1 rows cols
    | 64, false => quantizedBufferSizes 4 1 64 rows cols
    | 128, true => quantizedBufferSizes 4 128 1 rows cols
    | 128, false => quantizedBufferSizes 4 1 128 rows cols
    | 256, true => quantizedBufferSizes 4 256 1 rows cols
    | 256, false => quantizedBufferSizes 4 1 256 rows cols
    | _, _ => (0, 0, 0)
  else (0, 0, 0)

/-- `row_blks = (rows + QuantBlk::kRow - 1) / QuantBlk::kRow`
(q4_dq.cpp line 469). -/
def rowBlksOf (kRow rows : ℕ) : ℕ := (rows + kRow - 1) / kRow

/-- The quantizer's per-block `[min, max]` scan (q4_dq.cpp lines 495-506):
rows `[rowStart, rowEnd)` by columns `[colStart, colEnd)` of the source,
folded from `(FLT_MAX, -FLT_MAX)` with `if (v < min) ... if (v > max)`. -/
def bwScan (src : ℕ → ℚ) (ld rowStart rowEnd colStart colEnd : ℕ) : ℚ × ℚ :=
  (List.range (rowEnd - rowStart)).foldl
    (fun mm di =>
      (List.range (colEnd - colStart)).foldl
        (fun mm dj =>
          let v := src ((rowStart + di) * ld + (colStart + dj))
          (if v < mm.1 then v else mm.1, if v > mm.2 then v else mm.2))
        mm)
    (fltMax, -fltMax)

/-- The scale stored at meta cell `(mr, mc)` (q4_dq.cpp lines 508-516):
scan the quant block and apply `range2scale` (no zero points) or
`range2scalezp` (zero points requested). -/
def bwScale (kRow kCol rows cols ld : ℕ) (src : ℕ → ℚ) (useZp : Bool) (mr mc : ℕ) : ℚ :=
  let mm := bwScan src ld (mr * kRow) (min ((mr + 1) * kRow) rows)
      (mc * kCol) (min ((mc + 1) * kCol) cols)
  if useZp then (range2scalezp 4 mm.1 mm.2).1 else range2scale 4 mm.1 mm.2

/-- The tile-local `zp_bytes` entry for meta cell `(mr, mc)`
(q4_dq.cpp lines 477-478 and 508-516): initialized to `8` by
`std::fill_n(zp_bytes, kPackSize, (uint8_t)8)` and overwritten by
`range2scalezp` only when zero points are requested and the block's row
range `row_start < row_end` is nonempty. -/
def bwZp (kRow kCol rows cols ld : ℕ) (src : ℕ → ℚ) (useZp : Bool) (mr mc : ℕ) : ℕ :=
  if useZp then
    if mr * kRow < min ((mr + 1) * kRow) rows then
      let mm := bwScan src ld (mr * kRow) (min ((mr + 1) * kRow) rows)
          (mc * kCol) (min ((mc + 1) * kCol) cols)
      (range2scalezp 4 mm.1 mm.2).2
    else 8
  else 8

/-- The packed zero-point byte at `zero_points[mc * ((row_blks + 1) / 2)
+ mrHalf]` (q4_dq.cpp lines 520-523): `(zp_bytes[0] & 0xf) |
(zp_bytes[1] << 4)`. -/
def bwZpPairAt (kRow kCol rows cols ld : ℕ) (src : ℕ → ℚ) (mrHalf mc : ℕ) : ℕ :=
  bwZp kRow kCol rows cols ld src true (2 * mrHalf) mc % 16 |||
    (bwZp kRow kCol rows cols ld src true (2 * mrHalf + 1) mc <<< 4)

/-- One quantized nibble of the blockwise payload (q4_dq.cpp
lines 535-536, 547-548): `(uint8_t)std::clamp(roundf(v * recip + zp),
0.0f, kMaxFp)` with `kMaxFp = 15` for 4-bit. -/
def bwQuantNib (v recip : ℚ) (zp : ℕ) : ℕ :=
  castU8 (clampQ (roundf (v * recip + (zp : ℚ))) 0 15)

/-- `r_end` of the thread tile owning row `i` (q4_dq.cpp line 486):
`min(r + ThreadBlk::kRow, rows)` with `ThreadBlk::kRow = 2 * kRow`. -/
def bwREnd (kRow rows i : ℕ) : ℕ := min (i / (2 * kRow) * (2 * kRow) + 2 * kRow) rows

/-- The payload byte `dst[j * q_rows + i / 2]` emitted by
`quantizeAndTranspose` (q4_dq.cpp lines 525-553) for even row `i` and
column `j`: the low nibble quantizes `src[i][j]` against its block's
scale and `zp_bytes[meta_r & 1]`; the high nibble quantizes
`src[i+1][j]` against `zp_bytes[((i+1)/kRow) & 1]` (re-reading
`scales[meta_r + 1]` when `kRow == 1`), or is the raw `zp` when `i + 1`
falls outside the tile. -/
def bwDstByte (kRow kCol rows cols ld : ℕ) (src : ℕ → ℚ) (useZp : Bool) (i j : ℕ) : ℕ :=
  let mr := i / kRow
  let mc := j / kCol
  let rb := i / (2 * kRow)
  let recip := recipOf (bwScale kRow kCol rows cols ld src useZp mr mc)
  let zp := bwZp kRow kCol rows cols ld src useZp (2 * rb + mr % 2) mc
  let zpOne := bwZp kRow kCol rows cols ld src useZp (2 * rb + (i + 1) / kRow % 2) mc
  let vi0 := bwQuantNib (src (i * ld + j)) recip zp
  let vi1 :=
    if i + 1 < bwREnd kRow rows i then
      let recip1 :=
        if kRow = 1 then recipOf (bwScale kRow kCol rows cols ld src useZp (mr + 1) mc)
        else recip
      bwQuantNib (src ((i + 1) * ld + j)) recip1 zpOne
    else zp
  vi0 % 16 ||| (vi1 <<< 4)

/-- The zero-point nibble pair read by `BlockwiseQuantizer::dequantize`
(q4_dq.cpp lines 613-616): the constant `0x88` when `zero_points ==
nullptr`, else the packed byte. -/
def bwDeqZpPair (rowBlks : ℕ) (zps : Option (ℕ → ℕ)) (mr mc : ℕ) : ℕ :=
  match zps with
  | none => 0x88
  | some z => z (mc * ((rowBlks + 1) / 2) + mr / 2)

/-- `zp0` of the dequantizer (q4_dq.cpp line 617):
`(meta_row & 1) ? (zp_pair >> 4) : (zp_pair & 0xf)`. -/
def bwDeqZp0 (zpPair mr : ℕ) : ℕ := if mr % 2 = 1 then zpPair >>> 4 else zpPair % 16

/-- `zp1` of the dequantizer (q4_dq.cpp lines 625-630): `zp0` by default,
`(zp_pair >> 4) & 0xf` in the `QuantBlk::kRow == 1` specialization. -/
def bwDeqZp1 (kRow zpPair zp0 : ℕ) : ℕ := if kRow = 1 then zpPair >>> 4 % 16 else zp0

/-- The dequantized value at even row `i`, column `j`
(q4_dq.cpp lines 607-622): `(vi0 - zp0) * scale0` from the low nibble of
`weights[j * q_rows + i / 2]`. -/
def bwDeqVal0 (kRow kCol rows cols : ℕ) (weights : ℕ → ℕ) (scalesIn : ℕ → ℚ)
    (zps : Option (ℕ → ℕ)) (i j : ℕ) : ℚ :=
  let rowBlks := rowBlksOf kRow rows
  let qRows := (quantizedShape 4 kRow kCol rows cols).1
  let mr := i / kRow
  let mc := j / kCol
  let scale0 := scalesIn (mc * rowBlks + mr)
  let zp0 := bwDeqZp0 (bwDeqZpPair rowBlks zps mr mc) mr
  let vi0 := weights (j * qRows + i / 2) % 256 % 16
  (((vi0 : ℤ) - (zp0 : ℤ) : ℤ) : ℚ) * scale0

/-- The dequantized value at odd row `i + 1`, column `j`
(q4_dq.cpp lines 623-634): `(vi1 - zp1) * scale1` from the high nibble,
where `scale1`/`zp1` come from the next meta row when `kRow == 1`. -/
def bwDeqVal1 (kRow kCol rows cols : ℕ) (weights : ℕ → ℕ) (scalesIn : ℕ → ℚ)
    (zps : Option (ℕ → ℕ)) (i j : ℕ) : ℚ :=
  let rowBlks := rowBlksOf kRow rows
  let qRows := (quantizedShape 4 kRow kCol rows cols).1
  let mr := i / kRow
  let mc := j / kCol
  let zpPair := bwDeqZpPair rowBlks zps mr mc
  let scale1 :=
    if kRow = 1 then scalesIn (mc * rowBlks + mr + 1) else scalesIn (mc * rowBlks + mr)
  let zp1 := bwDeqZp1 kRow zpPair (bwDeqZp0 zpPair mr)
  let vi1 := weights (j * qRows + i / 2) % 256 >>> 4
  (((vi1 : ℤ) - (zp1 : ℤ) : ℤ) : ℚ) * scale1

/-! ## QDQ quantizer (`BlockwiseQDQQuantizer<Tin, qbits>`) -/

/-- `shift_bit_` of the QDQ quantizer (q4_dq.cpp line 656). -/
def shiftBit (qbits : ℕ) : ℕ := if qbits = 4 then 1 else if qbits = 2 then 2 else 0

/-- `BlockwiseQDQQuantizer::Pack` (q4_dq.cpp lines 664-671) applied to a
list of `kPackSize` values. -/
def qdqPackList (qbits : ℕ) (vals : List ℕ) : ℕ :=
  if qbits = 4 then vals.getD 0 0 % 16 ||| (vals.getD 1 0 % 16 <<< 4)
  else if qbits = 2 then
    vals.getD 0 0 % 4 ||| (vals.getD 1 0 % 4 <<< 2) ||| (vals.getD 2 0 % 4 <<< 4) |||
      (vals.getD 3 0 % 4 <<< 6)
  else vals.getD 0 0

/-- The pack-stride offsets visited by the per-tile loop of
`quantizeColumnWise` (q4_dq.cpp line 769): starting at offset `0`, the
loop advances by `pack_size_` while its condition
`input_idx + pack_size_ < input_end_idx` holds, i.e. while
`offset + pack < colSize`.  The fuel argument bounds the iteration
count; `colSize` fuel suffices because `pack_size_ ≥ 1` (the
`static_assert` on `kPackSize` excludes other bit widths). -/
def qdqStrideOffsetsAux (pack colSize : ℕ) : ℕ → ℕ → List ℕ
  | _, 0 => []
  | o, fuel + 1 => if o + pack < colSize then o :: qdqStrideOffsetsAux pack colSize (o + pack) fuel else []

/-- All stride offsets the loop processes inside one tile. -/
def qdqStrideOffsets (pack colSize : ℕ) : List ℕ := qdqStrideOffsetsAux pack colSize 0 colSize

/-- The per-stride min/max scan of one quant block (q4_dq.cpp
lines 775-782): column `i` of the stride, rows `j < rowSize`, folded
from `(FLT_MAX, -FLT_MAX)` with `std::min`/`std::max`. -/
def qdqMinMax (src : ℕ → ℚ) (columns rowSize inputIdx i : ℕ) : ℚ × ℚ :=
  (List.range rowSize).foldl
    (fun mm j =>
      let v := src (inputIdx + j * columns + i)
      (min mm.1 v, max mm.2 v))
    (fltMax, -fltMax)

/-- The scale and zero point of quant block `i` of a stride
(q4_dq.cpp lines 770 and 784-797): `zp_t` is pre-filled with `kMid` and
only overwritten when zero points are requested. -/
def qdqScaleZp (qbits : ℕ) (src : ℕ → ℚ) (useZp : Bool)
    (columns rowSize inputIdx i : ℕ) : ℚ × ℕ :=
  let mm := qdqMinMax src columns rowSize inputIdx i
  if useZp then range2scalezp qbits mm.1 mm.2
  else (range2scale qbits mm.1 mm.2, kMid qbits)

/-- The write events of one tile of `quantizeColumnWise`
(q4_dq.cpp lines 744-819), as `(index, value)` lists for the `scales`,
`zero_points` and `dst` output arrays. -/
def qdqTileWrites (qbits : ℕ) (src : ℕ → ℚ) (useZp : Bool)
    (rows columns quantBlockSize tIdx : ℕ) :
    List (ℕ × ℚ) × List (ℕ × ℕ) × List (ℕ × ℕ) :=
  let pack := kPackSize qbits
  let shift := shiftBit qbits
  let numColThrBlk := (columns + 16 - 1) / 16
  let rowQuantBlkIdx := tIdx / numColThrBlk
  let colThrBlkIdx := tIdx % numColThrBlk
  let rowIdx := rowQuantBlkIdx * quantBlockSize
  let colIdx := colThrBlkIdx * 16
  let rowSize := min quantBlockSize (rows - rowIdx)
  let colSize := min 16 (columns - colIdx)
  let input0 := rowIdx * columns + colIdx
  let scale0 := rowQuantBlkIdx * columns + colIdx
  let offs := qdqStrideOffsets pack colSize
  let scaleWrites := offs.flatMap fun o =>
    (List.range pack).map fun i =>
      (scale0 + o + i, (qdqScaleZp qbits src useZp columns rowSize (input0 + o) i).1)
  let zpWrites := offs.flatMap fun o =>
    if useZp then
      [((scale0 + o) >>> shift,
        qdqPackList qbits ((List.range pack).map fun i =>
          (qdqScaleZp qbits src useZp columns rowSize (input0 + o) i).2))]
    else []
  let dstWrites := offs.flatMap fun o =>
    (List.range rowSize).map fun j =>
      let idxT := input0 + o + j * columns
      (idxT >>> shift,
       qdqPackList qbits ((List.range pack).map fun i =>
         let p := qdqScaleZp qbits src useZp columns rowSize (input0 + o) i
         castU8 (clampQ (roundf (src (idxT + i) * recipOf p.1) + (p.2 : ℚ)) 0 (kMaxFp qbits))))
  (scaleWrites, zpWrites, dstWrites)

/-- All write events of `BlockwiseQDQQuantizer::quantizeColumnWise`
(q4_dq.cpp lines 723-822): `none` models the `ORT_ENFORCE` abort when
`columns` is not a multiple of `pack_size_`; otherwise the tiles'
`(scales, zero_points, dst)` writes in tile order. -/
def qdqQuantizeColumnWise (qbits : ℕ) (src : ℕ → ℚ) (useZp : Bool)
    (rows columns quantBlockSize : ℕ) :
    Option (List (ℕ × ℚ) × List (ℕ × ℕ) × List (ℕ × ℕ)) :=
  let pack := kPackSize qbits
  if columns % pack ≠ 0 then none
  else
    let numRowThrBlk := (rows + quantBlockSize - 1) / quantBlockSize
    let numColThrBlk := (columns + 16 - 1) / 16
    let tiles := (List.range (numRowThrBlk * numColThrBlk)).map
      (qdqTileWrites qbits src useZp rows columns quantBlockSize)
    some (tiles.flatMap (fun t => t.1), tiles.flatMap (fun t => t.2.1),
      tiles.flatMap (fun t => t.2.2))

/-! ## Spec-side definitions used for refinement claims -/

/-- Definition following the spec's words (§4.2, asymmetric range
reduction): clamp `min`/`max` around zero, `scale = (max - min) /
max_quant`, `zp_fp = min` when the scale is zero and `-min/scale`
otherwise, and `zp = clamp(round(zp_fp), 0, max_quant)` with explicit
clamping branches. -/
def range2scalezpSpec (qbits : ℕ) (mn mx : ℚ) : ℚ × ℕ :=
  let maxQuant : ℕ := 2 ^ qbits - 1
  let mn' := min mn 0
  let mx' := max mx 0
  let scale := (mx' - mn') / (maxQuant : ℚ)
  let zpFp := if scale = 0 then mn' else -mn' / scale
  let zp : ℕ :=
    if zpFp < 0 then 0
    else if zpFp > (maxQuant : ℚ) then maxQuant
    else castU8 (roundf zpFp)
  (scale, zp)

/-! ## Helper lemmas -/

theorem fltMax_pos : (0 : ℚ) < fltMax := by norm_num [fltMax]

theorem castU8_natCast (n : ℕ) : castU8 (n : ℚ) = n := by
  simp [castU8, Int.floor_natCast]

theorem roundf_natCast (n : ℕ) : roundf (n : ℚ) = (n : ℚ) := by
  have h0 : ¬ ((n : ℚ) < 0) := not_lt.mpr (by positivity)
  have hf : ⌊(n : ℚ) + 1 / 2⌋ = (n : ℤ) := by
    rw [Int.floor_eq_iff]
    constructor
    · push_cast; linarith
    · push_cast; linarith
  simp only [roundf, h0, if_false]
  exact_mod_cast hf

theorem roundf_nonneg {x : ℚ} (hx : 0 ≤ x) : 0 ≤ roundf x := by
  have h0 : ¬ (x < 0) := not_lt.mpr hx
  simp only [roundf, h0, if_false]
  have : (0 : ℤ) ≤ ⌊x + 1 / 2⌋ := Int.floor_nonneg.mpr (by linarith)
  exact_mod_cast this

theorem castU8_roundf_le {x : ℚ} {n : ℕ} (h0 : 0 ≤ x) (hn : x ≤ (n : ℚ)) :
    castU8 (roundf x) ≤ n := by
  have hlt : ¬ (x < 0) := not_lt.mpr h0
  simp only [roundf, hlt, if_false, castU8]
  have hfl : ⌊x + 1 / 2⌋ ≤ (n : ℤ) := by
    have : ⌊x + 1 / 2⌋ ≤ ⌊(n : ℚ) + 1 / 2⌋ := Int.floor_le_floor (by linarith)
    have hn2 : ⌊(n : ℚ) + 1 / 2⌋ = (n : ℤ) := by
      rw [Int.floor_eq_iff]
      constructor
      · push_cast; linarith
      · push_cast; linarith
    omega
  have : ⌊(⌊x + 1 / 2⌋ : ℚ)⌋ = ⌊x + 1 / 2⌋ := Int.floor_intCast _
  rw [this]
  omega

/-- The min/max fold step used by the asymmetric pack and blockwise scans. -/
theorem minMaxStep_bounds (blk : List ℚ) :
    ∀ init : ℚ × ℚ, ∀ v ∈ blk,
      (blk.foldl (fun mm w => (if w < mm.1 then w else mm.1, if w > mm.2 then w else mm.2))
          init).1 ≤ v ∧
      v ≤ (blk.foldl (fun mm w => (if w < mm.1 then w else mm.1, if w > mm.2 then w else mm.2))
          init).2 := by
  have hmono : ∀ (l : List ℚ) (p : ℚ × ℚ),
      (l.foldl (fun mm w => (if w < mm.1 then w else mm.1, if w > mm.2 then w else mm.2)) p).1 ≤
        p.1 ∧
      p.2 ≤ (l.foldl (fun mm w =>
        (if w < mm.1 then w else mm.1, if w > mm.2 then w else mm.2)) p).2 := by
    intro l
    induction l with
    | nil => intro p; exact ⟨le_refl _, le_refl _⟩
    | cons w t ih =>
      intro p
      refine ⟨le_trans (ih _).1 ?_, le_trans ?_ (ih _).2⟩
      · by_cases h : w < p.1 <;> simp [h] <;> linarith
      · by_cases h : w > p.2 <;> simp [h] <;> linarith
  induction blk with
  | nil => intro init v hv; cases hv
  | cons w t ih =>
    intro init v hv
    rcases List.mem_cons.mp hv with rfl | hv
    · constructor
      · refine le_trans (hmono t _).1 ?_
        by_cases h : v < init.1 <;> simp [h] <;> linarith
      · refine le_trans ?_ (hmono t _).2
        by_cases h : v > init.2 <;> simp [h] <;> linarith
    · exact ih _ v hv

theorem scanMinMax_le {blk : List ℚ} {v : ℚ} (hv : v ∈ blk) :
    (scanMinMax blk).1 ≤ v ∧ v ≤ (scanMinMax blk).2 :=
  minMaxStep_bounds blk (fltMax, -fltMax) v hv

/-- An all-zero nonempty block scans to `(0, 0)`. -/
theorem scanMinMax_all_zero {blk : List ℚ} (h0 : ∀ v ∈ blk, v = 0) (hne : blk ≠ []) :
    scanMinMax blk = (0, 0) := by
  have hzero : ∀ (l : List ℚ), (∀ v ∈ l, v = 0) →
      l.foldl (fun mm w => (if w < mm.1 then w else mm.1, if w > mm.2 then w else mm.2))
        (0, 0) = (0, 0) := by
    intro l
    induction l with
    | nil => intro _; rfl
    | cons w t ih =>
      intro hl
      have hw : w = 0 := hl w (List.mem_cons_self _ _)
      subst hw
      simpa using ih fun v hv => hl v (List.mem_cons_of_mem _ hv)
  cases blk with
  | nil => exact absurd rfl hne
  | cons w t =>
    have hw : w = 0 := h0 w (List.mem_cons_self _ _)
    subst hw
    have h1 : (0 : ℚ) < fltMax := fltMax_pos
    have h2 : (0 : ℚ) > -fltMax := by linarith
    simp only [scanMinMax, List.foldl_cons, if_pos h1, if_pos h2]
    exact hzero t fun v hv => h0 v (List.mem_cons_of_mem _ hv)

/-- Invariant of the symmetric `amax`/`max` fold: the remembered signed
value always attains the running absolute maximum. -/
theorem scanAbsMax_inv (blk : List ℚ) :
    ∀ init : ℚ × ℚ, |init.2| = init.1 →
      |(blk.foldl (fun am v => if am.1 < |v| then (|v|, v) else am) init).2| =
        (blk.foldl (fun am v => if am.1 < |v| then (|v|, v) else am) init).1 := by
  induction blk with
  | nil => intro init h; exact h
  | cons w t ih =>
    intro init h
    by_cases hw : init.1 < |w|
    · simpa [hw] using ih (|w|, w) (by simp)
    · simpa [hw] using ih init h

/-- The symmetric fold's running maximum is zero exactly when the initial
maximum is zero and every folded value is zero. -/
theorem scanAbsMax_zero_iff (blk : List ℚ) :
    ∀ init : ℚ × ℚ, 0 ≤ init.1 →
      ((blk.foldl (fun am v => if am.1 < |v| then (|v|, v) else am) init).1 = 0 ↔
        init.1 = 0 ∧ ∀ v ∈ blk, v = 0) := by
  induction blk with
  | nil => intro init _; simp
  | cons w t ih =>
    intro init hinit
    by_cases hw : init.1 < |w|
    · have habs : (0 : ℚ) < |w| := lt_of_le_of_lt hinit hw
      have hw0 : w ≠ 0 := by
        intro h; rw [h] at habs; simp at habs
      simp only [List.foldl_cons, if_pos hw]
      rw [ih (|w|, w) (abs_nonneg w)]
      constructor
      · rintro ⟨h1, -⟩
        exact absurd h1 (ne_of_gt habs)
      · rintro ⟨-, h2⟩
        exact absurd (h2 w (List.mem_cons_self _ _)) hw0
    · simp only [List.foldl_cons, if_neg hw]
      rw [ih init hinit]
      constructor
      · rintro ⟨h1, h2⟩
        refine ⟨h1, fun v hv => ?_⟩
        rcases List.mem_cons.mp hv with rfl | hv
        · have habs : |v| ≤ 0 := by rw [h1] at hw; exact not_lt.mp hw
          exact abs_nonpos_iff.mp habs
        · exact h2 v hv
      · rintro ⟨h1, h2⟩
        exact ⟨h1, fun v hv => h2 v (List.mem_cons_of_mem _ hv)⟩

/-- Every folded value is bounded by the final running maximum. -/
theorem scanAbsMax_ub (blk : List ℚ) :
    ∀ init : ℚ × ℚ, ∀ v ∈ blk,
      |v| ≤ (blk.foldl (fun am v => if am.1 < |v| then (|v|, v) else am) init).1 := by
  have hmono : ∀ (l : List ℚ) (p : ℚ × ℚ),
      p.1 ≤ (l.foldl (fun am v => if am.1 < |v| then (|v|, v) else am) p).1 := by
    intro l
    induction l with
    | nil => intro p; exact le_refl _
    | cons w t ih =>
      intro p
      by_cases hw : p.1 < |w|
      · simpa [hw] using le_trans (le_of_lt hw) (ih (|w|, w))
      · simpa [hw] using ih p
  induction blk with
  | nil => intro init v hv; cases hv
  | cons w t ih =>
    intro init v hv
    rcases List.mem_cons.mp hv with rfl | hv
    · by_cases hw : init.1 < |v|
      · simpa [hw] using hmono t (|v|, v)
      · simpa [hw] using le_trans (not_lt.mp hw) (hmono t init)
    · exact ih _ v hv

/-- Later values that do not exceed the running maximum leave the fold
unchanged: the first value attaining the maximum wins ties. -/
theorem scanAbsMax_append (xs ys : List ℚ)
    (h : ∀ v ∈ ys, |v| ≤ (scanAbsMax xs).1) : scanAbsMax (xs ++ ys) = scanAbsMax xs := by
  have hgen : ∀ (l : List ℚ) (p : ℚ × ℚ), (∀ v ∈ l, |v| ≤ p.1) →
      l.foldl (fun am v => if am.1 < |v| then (|v|, v) else am) p = p := by
    intro l
    induction l with
    | nil => intro p _; rfl
    | cons w t ih =>
      intro p hp
      have hw : ¬ (p.1 < |w|) := not_lt.mpr (hp w (List.mem_cons_self _ _))
      simp only [List.foldl_cons, if_neg hw]
      exact ih p fun v hv => hp v (List.mem_cons_of_mem _ hv)
  unfold scanAbsMax
  rw [List.foldl_append]
  exact hgen ys _ h

theorem range2scalezp_scale_nonneg (qbits : ℕ) (mn mx : ℚ) :
    0 ≤ (range2scalezp qbits mn mx).1 := by
  unfold range2scalezp kMaxFp
  have h1 : min mn 0 ≤ 0 := min_le_right _ _
  have h2 : (0 : ℚ) ≤ max mx 0 := le_max_right _ _
  have hnum : (0 : ℚ) ≤ max mx 0 - min mn 0 := by linarith
  have hden : (0 : ℚ) ≤ ((kMax qbits : ℕ) : ℚ) := by positivity
  exact div_nonneg hnum hden

theorem range2scalezp_zp_le (qbits : ℕ) (mn mx : ℚ) :
    (range2scalezp qbits mn mx).2 ≤ kMax qbits := by
  simp only [range2scalezp, kMaxFp]
  split
  all_goals split
  any_goals exact Nat.zero_le _
  all_goals split
  any_goals exact le_refl _
  all_goals rename_i h1 h2
  all_goals exact castU8_roundf_le (not_lt.mp h1) (not_lt.mp h2)

/-- The inline range reduction of the BLK1 pack coincides with
`range2scalezp` at 4 bits applied to the scanned range. -/
theorem asymBlockParams_eq (blk : List ℚ) :
    asymBlockParams blk = range2scalezp 4 (scanMinMax blk).1 (scanMinMax blk).2 := by
  unfold asymBlockParams range2scalezp kMaxFp kMax
  norm_num

theorem asymBlockParams_zp_le (blk : List ℚ) : (asymBlockParams blk).2 ≤ 15 := by
  rw [asymBlockParams_eq]
  exact range2scalezp_zp_le 4 _ _

/-- The tail/zero nibble of the symmetric pack: `(uint8_t)min(15, max(0,
0 + 8.5)) = 8`. -/
theorem castU8_midpoint : castU8 (min 15 (max 0 ((0 : ℚ) + 17 / 2))) = 8 := by
  have h1 : max (0 : ℚ) (0 + 17 / 2) = 17 / 2 := by norm_num
  have h2 : min (15 : ℚ) (17 / 2) = 17 / 2 := by norm_num
  rw [h1, h2]
  norm_num [castU8]
  decide

/-- Quantizing the value `0` against an in-range zero point returns the
zero point itself. -/
theorem asymQuant_zero (recip : ℚ) (zp : ℕ) (hzp : zp ≤ 15) :
    castU8 (min 15 (max 0 (roundf (0 * recip + (zp : ℚ))))) = zp := by
  rw [zero_mul, zero_add, roundf_natCast]
  have h1 : (0 : ℚ) ≤ (zp : ℚ) := by positivity
  have h2 : (zp : ℚ) ≤ 15 := by exact_mod_cast hzp
  rw [max_eq_right h1, min_eq_right h2, castU8_natCast]

theorem allZero_getD (blk : List ℚ) (h : ∀ v ∈ blk, v = 0) (p : ℕ) : blk.getD p 0 = 0 := by
  induction blk generalizing p with
  | nil => rfl
  | cons w t ih =>
    cases p with
    | zero => exact h w (List.mem_cons_self _ _)
    | succ p => exact ih (fun v hv => h v (List.mem_cons_of_mem _ hv)) p

/-- The BLK1 scale is zero exactly for an all-zero block. -/
theorem asymScale_zero_iff (blk : List ℚ) :
    (asymBlockParams blk).1 = 0 ↔ ∀ v ∈ blk, v = 0 := by
  have hscale : (asymBlockParams blk).1 =
      (max (scanMinMax blk).2 0 - min (scanMinMax blk).1 0) / ((kMax 4 : ℕ) : ℚ) := by
    rw [asymBlockParams_eq]
    simp [range2scalezp, kMaxFp]
  rw [hscale]
  have h15 : ((kMax 4 : ℕ) : ℚ) ≠ 0 := by norm_num [kMax]
  rw [div_eq_zero_iff]
  constructor
  · rintro (h | h)
    · intro v hv
      have hA : (0 : ℚ) ≤ max (scanMinMax blk).2 0 := le_max_right _ _
      have hB : min (scanMinMax blk).1 0 ≤ 0 := min_le_right _ _
      have hAB : max (scanMinMax blk).2 0 = min (scanMinMax blk).1 0 := by linarith
      have hA0 : max (scanMinMax blk).2 0 = 0 := le_antisymm (hAB ▸ hB) hA
      have hB0 : min (scanMinMax blk).1 0 = 0 := hAB ▸ hA0
      have hmx : (scanMinMax blk).2 ≤ 0 := by
        by_contra hc
        push_neg at hc
        rw [max_eq_left (le_of_lt hc)] at hA0
        exact absurd hA0 (ne_of_gt hc)
      have hmn : 0 ≤ (scanMinMax blk).1 := by
        by_contra hc
        push_neg at hc
        rw [min_eq_left (le_of_lt hc)] at hB0
        exact absurd hB0 (ne_of_lt hc)
      have hb := scanMinMax_le hv
      linarith [hb.1, hb.2]
    · exact absurd h h15
  · intro h
    left
    by_cases hne : blk = []
    · subst hne
      have h1 : max (-fltMax) 0 = 0 := max_eq_right (by linarith [fltMax_pos])
      have h2 : min fltMax 0 = 0 := min_eq_right (le_of_lt fltMax_pos)
      simp only [scanMinMax, List.foldl_nil, h1, h2, sub_zero]
    · rw [scanMinMax_all_zero h hne]
      norm_num

/-- The remembered signed value of `scanAbsMax` attains the running
absolute maximum. -/
theorem scanAbsMax_abs (blk : List ℚ) : |(scanAbsMax blk).2| = (scanAbsMax blk).1 :=
  scanAbsMax_inv blk (0, 0) (by simp)

/-- The running absolute maximum is zero exactly for an all-zero block. -/
theorem scanAbsMax_fst_zero_iff (blk : List ℚ) :
    (scanAbsMax blk).1 = 0 ↔ ∀ v ∈ blk, v = 0 := by
  have h := scanAbsMax_zero_iff blk (0, 0) (le_refl 0)
  constructor
  · intro h0
    exact (h.mp h0).2
  · intro hz
    exact h.mpr ⟨rfl, hz⟩

/-- The symmetric scale is zero exactly for an all-zero block. -/
theorem symScale_zero_iff (blk : List ℚ) : symScale blk = 0 ↔ ∀ v ∈ blk, v = 0 := by
  unfold symScale
  rw [div_eq_zero_iff]
  constructor
  · rintro (h | h)
    · have h2 := scanAbsMax_abs blk
      rw [h, abs_zero] at h2
      exact (scanAbsMax_fst_zero_iff blk).mp h2.symm
    · exact absurd h (by norm_num)
  · intro h
    left
    have h1 : (scanAbsMax blk).1 = 0 := (scanAbsMax_fst_zero_iff blk).mpr h
    have h2 := scanAbsMax_abs blk
    rw [h1] at h2
    exact abs_eq_zero.mp h2

/-- With no zero-point buffer, the tile-local `zp_bytes` keep their
initial value `8`. -/
theorem bwZp_false (kRow kCol rows cols ld : ℕ) (src : ℕ → ℚ) (mr mc : ℕ) :
    bwZp kRow kCol rows cols ld src false mr mc = 8 := rfl

/-! ## Claim theorems -/

/-- C1: the claim states that `quantizeColumnWise` processes every
column stride of `pack_count` inside each thread tile, writing all
`⌈rows / quant_block_size⌉ · columns` scale entries, packing the zero
points and covering every source element with a packed byte.  The code's
per-tile loop condition `input_idx + pack_size_ < input_end_idx` stops
one stride early: at `rows = 1`, `columns = 2` (a multiple of
`pack_count = 2`), `quant_block_size = 16`, with zero points requested,
the single tile performs no iteration at all — no scale, zero-point or
payload write happens, although `⌈1 / 16⌉ · 2 = 2` scale entries are
required. -/
theorem c1_qdq_columnwise_skips_final_stride :
    qdqQuantizeColumnWise 4 (fun _ => (1 : ℚ)) true 1 2 16 = some ([], [], []) ∧
      (1 + 16 - 1) / 16 * 2 = 2 := by
  constructor
  · decide
  · decide

/-- C2 counterexample: the claim states every scale written by the Q4
GEMM symmetric pack is `≥ 0`; packing the single-element column `[8]`
stores the scale `8 / (-8) = -1 < 0`. -/
theorem c2_counterexample_negative_scale :
    (packSymImpl 32 (fun _ => (8 : ℚ)) 1 1 1).map (fun b => b.scale) = [-1] ∧
      ¬ (0 : ℚ) ≤ -1 := by
  constructor
  · norm_num [packSymImpl, divRoundup, colBlock, symBlob, symScale, scanAbsMax,
      List.range_succ]
  · norm_num

/-- C2 (amended): every scale produced by the asymmetric range reduction
(`range2scalezp`, and the inline BLK1 pack) is `≥ 0`, and both the
symmetric and asymmetric per-block scales are zero exactly for an
all-zero block; the symmetric scale `m / (-8)`, however, takes the
opposite sign of the dominant value `m` and is negative whenever `m` is
positive. -/
theorem c2_scale_nonneg_and_zero_iff :
    ∀ (qbits : ℕ) (mn mx : ℚ) (blk : List ℚ),
      0 ≤ (range2scalezp qbits mn mx).1 ∧
      0 ≤ (asymBlockParams blk).1 ∧
      ((asymBlockParams blk).1 = 0 ↔ ∀ v ∈ blk, v = 0) ∧
      (symScale blk = 0 ↔ ∀ v ∈ blk, v = 0) ∧
      symScale blk = (scanAbsMax blk).2 / (-8) := by
  intro qbits mn mx blk
  refine ⟨range2scalezp_scale_nonneg qbits mn mx, ?_, asymScale_zero_iff blk,
    symScale_zero_iff blk, rfl⟩
  rw [asymBlockParams_eq]
  exact range2scalezp_scale_nonneg 4 _ _

/-- C3 counterexample: the claim states that on a tie of absolute
magnitudes the symmetric reduction prefers `max`; `range2scale` at
`min = -2`, `max = 2` picks `min`, giving `-2 / (-8) = 1/4` instead of
the claimed `2 / (-8) = -1/4`. -/
theorem c3_counterexample_tie_prefers_min :
    range2scale 4 (-2) 2 = 1 / 4 ∧ (2 : ℚ) / -((kMid 4 : ℕ) : ℚ) = -(1 / 4) ∧
      (1 : ℚ) / 4 ≠ -(1 / 4) := by
  refine ⟨?_, ?_, ?_⟩
  · norm_num [range2scale, kMid]
  · norm_num [kMid]
  · norm_num

/-- C3 (amended): in `range2scale`, `m` is `max` only when `|max| >
|min|`, so `min` is preferred on ties, and the scale equals
`m / -mid`; in the Q4 GEMM symmetric scan, the remembered value attains
the maximal absolute magnitude of the block, bounds every element, and
the first value attaining that magnitude wins: appending values of no
larger magnitude leaves the scan unchanged.  The block scale is the
scanned value divided by `-8`. -/
theorem c3_sym_reduction_m_choice :
    ∀ (qbits : ℕ) (mn mx : ℚ) (blk xs ys : List ℚ),
      range2scale qbits mn mx = (if |mx| > |mn| then mx else mn) / -((kMid qbits : ℕ) : ℚ) ∧
      (|mn| = |mx| → range2scale qbits mn mx = mn / -((kMid qbits : ℕ) : ℚ)) ∧
      |(scanAbsMax blk).2| = (scanAbsMax blk).1 ∧
      (∀ v ∈ blk, |v| ≤ (scanAbsMax blk).1) ∧
      ((∀ v ∈ ys, |v| ≤ (scanAbsMax xs).1) → scanAbsMax (xs ++ ys) = scanAbsMax xs) ∧
      symScale blk = (scanAbsMax blk).2 / (-8) := by
  intro qbits mn mx blk xs ys
  refine ⟨rfl, ?_, scanAbsMax_abs blk, fun v hv => scanAbsMax_ub blk (0, 0) v hv,
    scanAbsMax_append xs ys, rfl⟩
  intro htie
  have hcond : ¬ (|mx| > |mn|) := by rw [htie]; exact lt_irrefl _
  simp only [range2scale, if_neg hcond]

/-- C3 witness: the amended tie rule and first-attainment rule evaluated
at concrete inputs. -/
theorem c3_sym_reduction_m_choice_witness :
    range2scale 4 (-5) 5 = (-5) / -((kMid 4 : ℕ) : ℚ) ∧
      scanAbsMax ([(-2 : ℚ)] ++ [2]) = scanAbsMax [(-2 : ℚ)] := by
  obtain h := c3_sym_reduction_m_choice 4 (-5) 5 [(-2 : ℚ)] [(-2 : ℚ)] [2]
  refine ⟨h.2.1 (by norm_num), h.2.2.2.2.1 ?_⟩
  intro v hv
  rw [List.mem_singleton.mp hv]
  norm_num [scanAbsMax]

/-- C4 counterexample: the claim states that payload positions past
`klen` hold nibble `0` in the symmetric variant; packing the
single-element column `[4]` (klen = 1) writes payload byte 1 as
`0x88`, whose low nibble — position 1, beyond `klen` — is `8`, not `0`. -/
theorem c4_counterexample_sym_tail_nibble :
    (symPayload [(4 : ℚ)]).getD 1 0 = 136 ∧ (136 : ℕ) % 16 = 8 ∧ (8 : ℕ) ≠ 0 := by
  refine ⟨?_, by norm_num, by norm_num⟩
  norm_num [symPayload, subStrides, symNibble, castU8, recipOf, symScale, scanAbsMax,
    List.range_succ]
  decide

/-- C4 (amended): payload positions outside the covered range are
deterministic, but the symmetric variant writes nibble `8` (the
midpoint, which dequantizes to `(8 - 8) · scale = 0`), not `0`; the
asymmetric variant writes the nibble `zp`.  Likewise, for an all-zero
block every nibble is `8` in the symmetric variant and `zp` in the
asymmetric variant. -/
theorem c4_tail_and_allzero_nibbles :
    ∀ (blk : List ℚ) (recip : ℚ) (p : ℕ),
      (blk.length ≤ p → symNibble blk recip p = 8) ∧
      (blk.length ≤ p →
        asymNibble blk (recipOf (asymBlockParams blk).1) (asymBlockParams blk).2 p =
          (asymBlockParams blk).2) ∧
      ((∀ v ∈ blk, v = 0) →
        symNibble blk (recipOf (symScale blk)) p = 8 ∧
        asymNibble blk (recipOf (asymBlockParams blk).1) (asymBlockParams blk).2 p =
          (asymBlockParams blk).2) := by
  intro blk recip p
  have hzp := asymBlockParams_zp_le blk
  refine ⟨?_, ?_, ?_⟩
  · intro hp
    have hc : ¬ (p < blk.length) := not_lt.mpr hp
    simp only [symNibble, hc, if_false]
    exact castU8_midpoint
  · intro hp
    have hc : ¬ (p < blk.length) := not_lt.mpr hp
    simp only [asymNibble, hc, if_false]
    exact asymQuant_zero _ _ hzp
  · intro hzero
    constructor
    · by_cases hc : p < blk.length
      · simp only [symNibble, hc, if_true, allZero_getD blk hzero p, zero_mul]
        exact castU8_midpoint
      · simp only [symNibble, hc, if_false]
        exact castU8_midpoint
    · by_cases hc : p < blk.length
      · simp only [asymNibble, hc, if_true, allZero_getD blk hzero p]
        exact asymQuant_zero _ _ hzp
      · simp only [asymNibble, hc, if_false]
        exact asymQuant_zero _ _ hzp

/-- C4 witness: the amended tail and all-zero nibble values at concrete
blocks. -/
theorem c4_tail_and_allzero_nibbles_witness :
    symNibble [(2 : ℚ)] 3 5 = 8 ∧
      asymNibble [(2 : ℚ)] (recipOf (asymBlockParams [(2 : ℚ)]).1)
        (asymBlockParams [(2 : ℚ)]).2 5 = (asymBlockParams [(2 : ℚ)]).2 ∧
      symNibble [(0 : ℚ)] (recipOf (symScale [(0 : ℚ)])) 0 = 8 := by
  obtain h1 := c4_tail_and_allzero_nibbles [(2 : ℚ)] 3 5
  obtain h2 := c4_tail_and_allzero_nibbles [(0 : ℚ)] (recipOf (symScale [(0 : ℚ)])) 0
  refine ⟨h1.1 (by norm_num), h1.2.1 (by norm_num), ?_⟩
  exact (h2.2.2 (by intro v hv; simpa using List.mem_singleton.mp hv)).1

/-- C5: the asymmetric range reduction of the source (`range2scalezp`,
and — via the scanned range — the inline BLK1 pack) coincides with the
spec's formulas: clamp `min ≤ 0 ≤ max`, `scale = (max - min) /
max_quant` with `max_quant = (1 << qbits) - 1`, `zp_fp = min` for a zero
scale and `-min / scale` otherwise, explicit clamping of `round(zp_fp)`
to `[0, max_quant]`; the stored zero point always lies in
`[0, max_quant]`. -/
theorem c5_range2scalezp_matches_spec :
    ∀ (qbits : ℕ) (mn mx : ℚ) (blk : List ℚ),
      range2scalezp qbits mn mx = range2scalezpSpec qbits mn mx ∧
      (range2scalezp qbits mn mx).2 ≤ kMax qbits ∧
      asymBlockParams blk = range2scalezp 4 (scanMinMax blk).1 (scanMinMax blk).2 := by
  intro qbits mn mx blk
  refine ⟨?_, range2scalezp_zp_le qbits mn mx, asymBlockParams_eq blk⟩
  simp only [range2scalezp, range2scalezpSpec, kMaxFp, kMax]
  by_cases h : (max mx 0 - min mn 0) / (((2 ^ qbits - 1 : ℕ) : ℚ)) = 0
  · simp only [h, ne_eq, not_true_eq_false, if_false, ite_false, ite_true, if_true]
  · simp only [h, ne_eq, not_false_eq_true, ite_true, ite_false, zero_sub, neg_div]

/-- C6: in the asymmetric BLK1 pack, a source element that is exactly
`0` quantizes to the stored (possibly clamped) zero point, and the
asymmetric unpack `(nibble - zp) * scale` dequantizes it back to exactly
`0`. -/
theorem c6_asym_zero_roundtrip :
    ∀ (blk : List ℚ) (p : ℕ), p < blk.length → blk.getD p 0 = 0 →
      asymNibble blk (recipOf (asymBlockParams blk).1) (asymBlockParams blk).2 p =
        (asymBlockParams blk).2 ∧
      unpackAsymVal
        (asymNibble blk (recipOf (asymBlockParams blk).1) (asymBlockParams blk).2 p)
        (asymBlockParams blk).2 (asymBlockParams blk).1 = 0 := by
  intro blk p hp h0
  have hzp := asymBlockParams_zp_le blk
  have hnib : asymNibble blk (recipOf (asymBlockParams blk).1) (asymBlockParams blk).2 p =
      (asymBlockParams blk).2 := by
    simp only [asymNibble, hp, if_true, h0]
    exact asymQuant_zero _ _ hzp
  refine ⟨hnib, ?_⟩
  rw [hnib]
  simp [unpackAsymVal]

/-- C6 witness: the zero element of the block `[0, 3]` quantizes to the
block's zero point and dequantizes to exactly `0`. -/
theorem c6_asym_zero_roundtrip_witness :
    asymNibble [(0 : ℚ), 3] (recipOf (asymBlockParams [(0 : ℚ), 3]).1)
        (asymBlockParams [(0 : ℚ), 3]).2 0 = (asymBlockParams [(0 : ℚ), 3]).2 ∧
      unpackAsymVal
        (asymNibble [(0 : ℚ), 3] (recipOf (asymBlockParams [(0 : ℚ), 3]).1)
          (asymBlockParams [(0 : ℚ), 3]).2 0)
        (asymBlockParams [(0 : ℚ), 3]).2 (asymBlockParams [(0 : ℚ), 3]).1 = 0 :=
  c6_asym_zero_roundtrip [(0 : ℚ), 3] 0 (by norm_num) rfl

/-- C7: `MlasQ4GemmPackBSize` returns `0` whenever the platform dispatch
table is absent; with the table present it returns
`N · ⌈K / BlkLen⌉ · BlobSize` for the selected block type (BlobSize 20
for SYM, 36 for SYM64, 68 for SYM128) and falls back to the asymmetric
BLK1 size `N · ⌈K / 32⌉ · 21` for every other `QType` value. -/
theorem c7_q4_gemm_pack_b_size :
    ∀ (q N K : ℕ),
      MlasQ4GemmPackBSize false q N K = 0 ∧
      MlasQ4GemmPackBSize true BlkQ4Sym N K = N * divRoundup K 32 * 20 ∧
      MlasQ4GemmPackBSize true BlkQ4Sym64 N K = N * divRoundup K 64 * 36 ∧
      MlasQ4GemmPackBSize true BlkQ4Sym128 N K = N * divRoundup K 128 * 68 ∧
      (q ≠ BlkQ4Sym → q ≠ BlkQ4Sym64 → q ≠ BlkQ4Sym128 →
        MlasQ4GemmPackBSize true q N K = N * divRoundup K 32 * 21) := by
  intro q N K
  refine ⟨rfl, rfl, rfl, rfl, ?_⟩
  intro h0 h2 h4
  simp [MlasQ4GemmPackBSize, BlkQ4BufSize, blk1Len, blk1Blob, h0, h2, h4]

/-- C7 witness: the absent-dispatch and default-type sizes evaluated at
`QType = 3`, `N = 2`, `K = 33`. -/
theorem c7_q4_gemm_pack_b_size_witness :
    MlasQ4GemmPackBSize false 3 2 33 = 0 ∧ MlasQ4GemmPackBSize true 3 2 33 = 84 := by
  obtain h := c7_q4_gemm_pack_b_size 3 2 33
  exact ⟨h.1, (h.2.2.2.2 (by decide) (by decide) (by decide)).trans (by decide)⟩

/-- C8: for every supported block size `B ∈ {16, 32, 64, 128, 256}` and
axis, the blockwise buffer-size helper returns `data_bytes = q_rows ·
q_cols`, `scale_num_elements = meta_rows · meta_cols` and zero-point
bytes `⌈meta_rows · qbits / 8⌉ · meta_cols`, with `(q_rows, q_cols) =
(⌈meta_rows · block_rows · qbits / 8⌉, meta_cols · block_cols)` and
`(meta_rows, meta_cols) = (⌈rows / block_rows⌉, ⌈cols / block_cols⌉)`
for `qbits = 4`. -/
theorem c8_blockwise_buffer_sizes :
    ∀ (blockSize : ℕ) (cw : Bool) (rows cols : ℕ),
      blockSize = 16 ∨ blockSize = 32 ∨ blockSize = 64 ∨ blockSize = 128 ∨ blockSize = 256 →
      MlasBlockwiseQuantizedBufferSizes 4 blockSize cw rows cols =
        (let d := blkDims blockSize cw
         let metaRows := (rows + d.1 - 1) / d.1
         let metaCols := (cols + d.2 - 1) / d.2
         let qRows := (metaRows * d.1 * 4 + 7) / 8
         let qCols := metaCols * d.2
         (qRows * qCols, metaRows * metaCols, (metaRows * 4 + 7) / 8 * metaCols)) := by
  intro blockSize cw rows cols hB
  rcases hB with rfl | rfl | rfl | rfl | rfl <;> cases cw <;> rfl

/-- C8 witness: block size 32, columnwise, on a `33 × 20` matrix:
640 payload bytes, 40 scales, 20 zero-point bytes. -/
theorem c8_blockwise_buffer_sizes_witness :
    MlasBlockwiseQuantizedBufferSizes 4 32 true 33 20 = (640, 40, 20) := by
  have h := c8_blockwise_buffer_sizes 32 true 33 20 (by norm_num)
  exact h.trans (by decide)

/-- C9: when no zero-point buffer is supplied, the blockwise quantizer
and dequantizer agree on the implicit zero point `8`: the tile-local
`zp_bytes` stay at their initial value `8`, every payload nibble is
quantized against `8`, and the dequantizer reads the constant nibble
pair `0x88`, so both `zp0` and `zp1` are `8` for every block. -/
theorem c9_null_zero_points_use_8 :
    ∀ (kRow kCol rows cols ld : ℕ) (src : ℕ → ℚ) (i j mr mc : ℕ),
      bwZp kRow kCol rows cols ld src false mr mc = 8 ∧
      bwDeqZpPair (rowBlksOf kRow rows) none mr mc = 0x88 ∧
      bwDeqZp0 (bwDeqZpPair (rowBlksOf kRow rows) none mr mc) mr = 8 ∧
      bwDeqZp1 kRow (bwDeqZpPair (rowBlksOf kRow rows) none mr mc)
        (bwDeqZp0 (bwDeqZpPair (rowBlksOf kRow rows) none mr mc) mr) = 8 ∧
      bwDstByte kRow kCol rows cols ld src false i j =
        bwQuantNib (src (i * ld + j))
            (recipOf (bwScale kRow kCol rows cols ld src false (i / kRow) (j / kCol))) 8 % 16 |||
          ((if i + 1 < bwREnd kRow rows i then
              bwQuantNib (src ((i + 1) * ld + j))
                (if kRow = 1 then
                  recipOf (bwScale kRow kCol rows cols ld src false (i / kRow + 1) (j / kCol))
                else
                  recipOf (bwScale kRow kCol rows cols ld src false (i / kRow) (j / kCol))) 8
            else 8) <<< 4) := by
  intro kRow kCol rows cols ld src i j mr mc
  have hpair : bwDeqZpPair (rowBlksOf kRow rows) none mr mc = 0x88 := rfl
  have hzp0 : bwDeqZp0 0x88 mr = 8 := by
    unfold bwDeqZp0
    split
    · decide
    · decide
  have hzp1 : bwDeqZp1 kRow 0x88 8 = 8 := by
    unfold bwDeqZp1
    split
    · decide
    · rfl
  refine ⟨bwZp_false kRow kCol rows cols ld src mr mc, hpair, ?_, ?_, ?_⟩
  · rw [hpair]
    exact hzp0
  · rw [hpair, hzp0]
    exact hzp1
  · simp only [bwDstByte, bwZp_false]

/-- C10: for every `QType` value other than `BlkQ4Sym`, `BlkQ4Sym64` and
`BlkQ4Sym128` — including out-of-range values — the size, pack and
unpack entry points all fall through to the asymmetric BLK1 variant
(block length 32, blob size 21); no rejection of unsupported types
happens in these switches. -/
theorem c10_default_falls_through_to_blk1 :
    ∀ q : ℕ, q ≠ BlkQ4Sym → q ≠ BlkQ4Sym64 → q ≠ BlkQ4Sym128 →
      (∀ N K : ℕ, MlasQ4GemmPackBSize true q N K = BlkQ4BufSize blk1Len blk1Blob N K) ∧
      (∀ (src : ℕ → ℚ) (N K ldb : ℕ),
        MlasQ4GemmPackB q src N K ldb = PackedB.asym (packAsymImpl src N K ldb)) ∧
      MlasQ4GemmUnPackBSelect q = (blk1Len, blk1Blob, true) := by
  intro q h0 h2 h4
  refine ⟨fun N K => ?_, fun src N K ldb => ?_, ?_⟩
  · simp [MlasQ4GemmPackBSize, h0, h2, h4]
  · simp [MlasQ4GemmPackB, h0, h2, h4]
  · simp [MlasQ4GemmUnPackBSelect, h0, h2, h4]

/-- C10 witness: `QType = 1` (the asymmetric enum value) takes the
default branch in all three entry points. -/
theorem c10_default_falls_through_to_blk1_witness :
    MlasQ4GemmPackBSize true 1 5 70 = BlkQ4BufSize blk1Len blk1Blob 5 70 ∧
      MlasQ4GemmPackB 1 (fun _ => (3 : ℚ)) 1 1 1 =
        PackedB.asym (packAsymImpl (fun _ => (3 : ℚ)) 1 1 1) ∧
      MlasQ4GemmUnPackBSelect 1 = (blk1Len, blk1Blob, true) := by
  obtain h := c10_default_falls_through_to_blk1 1 (by decide) (by decide) (by decide)
  exact ⟨h.1 5 70, h.2.1 (fun _ => (3 : ℚ)) 1 1 1, h.2.2⟩

end Q4dq
